import Mathlib

/-!
Verification of the congruence-closure engine of `src/src/cc/mod.rs`.

The engine state (`CongruenceClosure`) couples a key-to-token interning map,
a union-find table and a successor graph.  The `unify` and `graph` crates are
external to the sources provided here, so their small operation surface is
modelled from the spec (sections 4.2 and 4.3); the congruence-closure code
itself is translated from `src/src/cc/mod.rs`.

Tokens are `u32` indices used only as dense identifiers; they are modelled
as `Nat` (the algorithm performs no arithmetic on them that could overflow).
The Rust `add` recurses over a term's successors, and `merge`/`maybe_merge`
recurse through a shrinking partition; both are encoded with an explicit fuel
parameter so that runs on concrete inputs compute, and theorems below show
that the fuel budgets supplied by the public operations always suffice.
-/

/- Tokens (src/src/cc/mod.rs:22-42) are dense indices shared by the graph
and the union-find table; they are written as plain `Nat` throughout. -/

/-- The `Key` trait (src/src/cc/mod.rs:17-20).  The fields `size` and
`size_spec` make explicit the implicit Rust contract that keys are finite
terms: every key is strictly larger than all of its successors together. -/
class Key (K : Type) where
  shallow_eq : K → K → Bool
  successors : K → List K
  size : K → Nat
  size_spec : ∀ k : K, ((successors k).map size).sum < size k

/-- Modelled from the spec: section 4.3, the union-find table of the external
`unify` crate.  The table stores, for every token, the representative of its
equivalence class; out-of-range tokens are their own representative. -/
def find (t : List Nat) (u : Nat) : Nat := t.getD u u

/-- Modelled from the spec: section 4.3 `unioned(u, v)`, the same-class test. -/
def unioned (t : List Nat) (u v : Nat) : Bool := find t u == find t v

/-- Modelled from the spec: section 4.3 `union(u, v)`: merge the two classes,
relabelling the representatives of `v`'s class with `u`'s representative. -/
def union (t : List Nat) (u v : Nat) : List Nat :=
  t.map fun r => if r = find t v then find t u else r

/-- Modelled from the spec: section 4.3 `new_key(())`: allocate a fresh
singleton slot at the next dense index. -/
def newKey (t : List Nat) : Nat × List Nat := (t.length, t ++ [t.length])

/-- Modelled from the spec: section 4.3 `unioned_keys(u)`: every token
currently in the same equivalence class as `u`. -/
def unionedKeys (t : List Nat) (u : Nat) : List Nat :=
  (List.range t.length).filter fun i => unioned t i u

/-- Modelled from the spec: section 4.2 `successor_nodes(n)` of the external
`graph` crate: successors of `n` in edge-insertion order. -/
def successor_nodes (edges : List (Nat × Nat)) (n : Nat) : List Nat :=
  (edges.filter fun e => e.1 == n).map fun e => e.2

/-- Modelled from the spec: section 4.2 `predecessor_nodes(n)`: all nodes
with an outgoing edge into `n`. -/
def predecessor_nodes (edges : List (Nat × Nat)) (n : Nat) : List Nat :=
  (edges.filter fun e => e.2 == n).map fun e => e.1

/-- `CongruenceClosure` (src/src/cc/mod.rs:11-15): interning map, union-find
table, and the term graph (node keys plus parent-to-successor edges). -/
structure CC (K : Type) where
  map : List (K × Nat)
  table : List Nat
  nodes : List K
  edges : List (Nat × Nat)
deriving Repr, DecidableEq

/-- `HashMap` lookup of the interning map, modelled as an association list
(keys are kept unique by `new_token`). -/
def lookupKey {K : Type} [DecidableEq K] : List (K × Nat) → K → Option Nat
  | [], _ => none
  | (k', t) :: rest, k => if k' = k then some t else lookupKey rest k

/-- `Algorithm::shallow_eq` (src/src/cc/mod.rs:228-232): compare the node
data of the two tokens.  The source indexes the graph directly (it is only
called on interned tokens); out-of-range lookups are mapped to `false`. -/
def shallow_eq {K : Type} [Key K] (nodes : List K) (u v : Nat) : Bool :=
  match nodes[u]?, nodes[v]? with
  | some ku, some kv => Key.shallow_eq ku kv
  | _, _ => false

/-- `Algorithm::congruent` (src/src/cc/mod.rs:215-224): the two successor
sequences have equal length and are `unioned` position by position. -/
def congruent (edges : List (Nat × Nat)) (t : List Nat) (u v : Nat) : Bool :=
  let ss_u := successor_nodes edges u
  let ss_v := successor_nodes edges v
  ss_u.length == ss_v.length &&
    (ss_u.zip ss_v).all fun s => unioned t s.1 s.2

/-- `Algorithm::all_preds` (src/src/cc/mod.rs:194-201): predecessors of every
token in the current equivalence class of `u`. -/
def all_preds (edges : List (Nat × Nat)) (t : List Nat) (u : Nat) : List Nat :=
  (unionedKeys t u).flatMap fun k => predecessor_nodes edges k

/-- The number of equivalence classes of a table: the number of distinct
representatives stored in it. -/
def numClasses (t : List Nat) : Nat := t.toFinset.card

/-- Fuel budget for one `merge`/`maybe_merge` fixpoint.  Every worklist step
of `merge_run` either discharges a request or performs a union; a union
strictly decreases `numClasses` and spawns at most
`(tokens * edges) * (tokens * edges)` new requests (spec, section 9,
Termination).  `merge_run_spec` below proves this budget sufficient. -/
def mergeFuel (t : List Nat) (edges : List (Nat × Nat)) : Nat :=
  numClasses t * (t.length * edges.length * (t.length * edges.length) + 1) + 2

/-- The mutually recursive `Algorithm::merge` / `Algorithm::maybe_merge` pair
(src/src/cc/mod.rs:175-209), written as one fuel-indexed loop over a worklist
of pending requests.  A request `(true, u, v)` is a call `merge(u, v)` and
`(false, u, v)` a call `maybe_merge(u, v)`; the pairs spawned by a union are
handled before the requests already pending, which is exactly the source's
depth-first recursion order.  A `merge` request on an already-unioned pair
returns at once (line 178); a `maybe_merge` request proceeds only when the
pair is not unioned, is shallow-equal and congruent (line 206), in which case
the inner `merge` call unions the pair and recurses over the product of the
predecessor sets snapshotted before the union (lines 182-191).  Fuel is spent
at every step; running out yields `none`. -/
def merge_run {K : Type} [Key K] :
    Nat → List (Nat × Nat) → List K → List Nat →
    List (Bool × Nat × Nat) → Option (List Nat)
  | _, _, _, t, [] => some t
  | 0, _, _, _, _ :: _ => none
  | fuel + 1, edges, nodes, t, (force, u, v) :: rest =>
    if unioned t u v then
      merge_run fuel edges nodes t rest
    else if force || (shallow_eq nodes u v && congruent edges t u v) then
      let u_preds := all_preds edges t u
      let v_preds := all_preds edges t v
      merge_run fuel edges nodes (union t u v)
        ((u_preds.flatMap fun pu => v_preds.map fun pv => (false, pu, pv)) ++ rest)
    else
      merge_run fuel edges nodes t rest

/-- `CongruenceClosure::new_token` (src/src/cc/mod.rs:148-159): look the key
up; if absent, allocate a union-find slot and a graph node, assert that both
allocators returned the same index (`none` models the assertion failing), and
record the mapping. -/
def new_token {K : Type} [DecidableEq K] (cc : CC K) (k : K) :
    Option (Bool × Nat × CC K) :=
  match lookupKey cc.map k with
  | some t => some (false, t, cc)
  | none =>
    let (token, table') := newKey cc.table
    let node := cc.nodes.length
    if token = node then
      some (true, token,
        { cc with
            map := cc.map ++ [(k, token)]
            table := table'
            nodes := cc.nodes ++ [k] })
    else none

/-- The predecessor loop of `add` (src/src/cc/mod.rs:124-126): one
`maybe_merge(token, p)` per snapshot predecessor `p`; only the union-find
table changes.  Each invocation runs with the `mergeFuel` budget. -/
def pred_loop {K : Type} [Key K] (edges : List (Nat × Nat)) (nodes : List K) :
    List Nat → Nat → List Nat → Option (List Nat)
  | t, _, [] => some t
  | t, tok, p :: ps =>
    match merge_run (mergeFuel t edges) edges nodes t [(false, tok, p)] with
    | none => none
    | some t' => pred_loop edges nodes t' tok ps

/-- The successor loop of `add` (src/src/cc/mod.rs:97-127): for each
successor token in order, snapshot the predecessors of the new node, install
the edge from the new node to the successor, then `maybe_merge` the new node
against each snapshot predecessor. -/
def add_edges {K : Type} [Key K] (cc : CC K) (tok : Nat) :
    List Nat → Option (CC K)
  | [] => some cc
  | s :: ss =>
    let preds := predecessor_nodes cc.edges tok
    let edges' := cc.edges ++ [(tok, s)]
    match pred_loop edges' cc.nodes cc.table tok preds with
    | none => none
    | some t' => add_edges { cc with edges := edges', table := t' } tok ss

/-- `CongruenceClosure::add` (src/src/cc/mod.rs:67-130) in fuel-indexed form,
processing a list of keys in order (the recursive successor adds of the
source become the recursive call on `Key.successors k`).  A key already
interned is returned as is (line 74); a fresh key is interned, its successors
added recursively, and the successor loop run.  Returns the tokens in input
order.  Fuel is spent on every recursive call; `add_run_spec` below shows the
budget `2 * (sum of sizes) + 1` always suffices. -/
def add_run {K : Type} [DecidableEq K] [Key K] :
    Nat → CC K → List K → Option (List Nat × CC K)
  | 0, _, _ => none
  | _ + 1, cc, [] => some ([], cc)
  | fuel + 1, cc, k :: ks =>
    match new_token cc k with
    | none => none
    | some (false, t, cc₁) =>
      match add_run fuel cc₁ ks with
      | none => none
      | some (ts, cc₂) => some (t :: ts, cc₂)
    | some (true, t, cc₁) =>
      match add_run fuel cc₁ (Key.successors k) with
      | none => none
      | some (ss, cc₂) =>
        match add_edges cc₂ t ss with
        | none => none
        | some cc₃ =>
          match add_run fuel cc₃ ks with
          | none => none
          | some (ts, cc₄) => some (t :: ts, cc₄)

/-- `CongruenceClosure::new` (src/src/cc/mod.rs:59-65). -/
def CC.empty (K : Type) : CC K := ⟨[], [], [], []⟩

/-- Public `add` (src/src/cc/mod.rs:67): intern one key and recursively its
successors. -/
def CC.add {K : Type} [DecidableEq K] [Key K] (cc : CC K) (k : K) :
    Option (Nat × CC K) :=
  match add_run (2 * Key.size k + 1) cc [k] with
  | some (t :: _, cc') => some (t, cc')
  | _ => none

/-- Public `merge` (src/src/cc/mod.rs:132-136): add both keys, then run the
algorithm's `merge` on their tokens. -/
def CC.merge {K : Type} [DecidableEq K] [Key K] (cc : CC K) (k1 k2 : K) :
    Option (CC K) :=
  match CC.add cc k1 with
  | none => none
  | some (t1, cc₁) =>
    match CC.add cc₁ k2 with
    | none => none
    | some (t2, cc₂) =>
      match merge_run (mergeFuel cc₂.table cc₂.edges) cc₂.edges cc₂.nodes
          cc₂.table [(true, t1, t2)] with
      | none => none
      | some t' => some { cc₂ with table := t' }

/-- Public `merged` (src/src/cc/mod.rs:138-146): add both keys (they may be
latently equated through their successors), then test `unioned`. -/
def CC.merged {K : Type} [DecidableEq K] [Key K] (cc : CC K) (k1 k2 : K) :
    Option (Bool × CC K) :=
  match CC.add cc k1 with
  | none => none
  | some (t1, cc₁) =>
    match CC.add cc₁ k2 with
    | none => none
    | some (t2, cc₂) => some (unioned cc₂.table t1 t2, cc₂)

/-- A concrete key type for the end-to-end scenarios of the spec (section 8):
atoms, one-successor terms `f1 label t` and two-successor terms
`f2 label t u`, with `shallow_eq` comparing only the outer constructor and
label. -/
inductive Term where
  | atom : Nat → Term
  | f1 : Nat → Term → Term
  | f2 : Nat → Term → Term → Term
deriving DecidableEq, Repr

def Term.shEq : Term → Term → Bool
  | .atom a, .atom b => a == b
  | .f1 a _, .f1 b _ => a == b
  | .f2 a _ _, .f2 b _ _ => a == b
  | _, _ => false

def Term.succs : Term → List Term
  | .atom _ => []
  | .f1 _ t => [t]
  | .f2 _ t u => [t, u]

def Term.size : Term → Nat
  | .atom _ => 1
  | .f1 _ t => t.size + 1
  | .f2 _ t u => t.size + u.size + 1

instance : Key Term where
  shallow_eq := Term.shEq
  successors := Term.succs
  size := Term.size
  size_spec := by
    intro k
    cases k <;> simp only [Term.succs, Term.size, List.map_cons, List.map_nil,
      List.sum_cons, List.sum_nil] <;> omega

/-! ## Invariants of the engine state -/

/-- Every stored representative is an allocated token. -/
def Valid (t : List Nat) : Prop := ∀ r ∈ t, r < t.length

/-- Every edge endpoint is an allocated token. -/
def EdgesValid (edges : List (Nat × Nat)) (n : Nat) : Prop :=
  ∀ e ∈ edges, e.1 < n ∧ e.2 < n

/-- The `unioned` relation of the first table is contained in that of the
second: classes only grow. -/
def Mono (t t' : List Nat) : Prop :=
  ∀ u v, unioned t u v = true → unioned t' u v = true

/-- The structural invariant of a reachable engine state (spec, section 3,
Invariants 1-3): the union-find table and graph have one slot per token, all
stored indices are allocated, and the map points at allocated tokens. -/
structure CCInv {K : Type} (cc : CC K) : Prop where
  len_eq : cc.table.length = cc.nodes.length
  valid : Valid cc.table
  edges_valid : EdgesValid cc.edges cc.table.length
  map_valid : ∀ p ∈ cc.map, p.2 < cc.table.length

theorem Mono.rfl {t : List Nat} : Mono t t := fun _ _ h => h

theorem Mono.comp {t₁ t₂ t₃ : List Nat} (h₁ : Mono t₁ t₂) (h₂ : Mono t₂ t₃) :
    Mono t₁ t₃ := fun u v h => h₂ u v (h₁ u v h)

/-! ## Union-find lemmas -/

theorem find_eq_get {t : List Nat} {u : Nat} (h : u < t.length) :
    find t u = t[u] := List.getD_eq_getElem t u h

theorem find_eq_self {t : List Nat} {u : Nat} (h : t.length ≤ u) :
    find t u = u := List.getD_eq_default t u h

theorem find_mem {t : List Nat} {u : Nat} (h : u < t.length) : find t u ∈ t := by
  rw [find_eq_get h]; exact List.getElem_mem h

theorem find_lt {t : List Nat} {u : Nat} (hV : Valid t) (h : u < t.length) :
    find t u < t.length := hV _ (find_mem h)

theorem unioned_iff {t : List Nat} {u v : Nat} :
    unioned t u v = true ↔ find t u = find t v := by
  simp [unioned]

theorem unioned_refl (t : List Nat) (u : Nat) : unioned t u u = true :=
  unioned_iff.mpr rfl

theorem unioned_comm (t : List Nat) (u v : Nat) :
    unioned t u v = unioned t v u := by
  unfold unioned
  by_cases h : find t u = find t v
  · rw [h]
  · rw [beq_eq_false_iff_ne.mpr h, beq_eq_false_iff_ne.mpr (Ne.symm h)]

theorem unioned_trans {t : List Nat} {u v w : Nat}
    (h₁ : unioned t u v = true) (h₂ : unioned t v w = true) :
    unioned t u w = true :=
  unioned_iff.mpr ((unioned_iff.mp h₁).trans (unioned_iff.mp h₂))

theorem find_append_len (t : List Nat) (u : Nat) :
    find (t ++ [t.length]) u = find t u := by
  rcases lt_trichotomy u t.length with h | h | h
  · unfold find
    rw [List.getD_append _ _ _ _ h]
  · subst h
    rw [find_eq_self (le_refl _)]
    unfold find
    rw [List.getD_append_right _ _ _ _ (le_refl _), Nat.sub_self]
    rfl
  · rw [find_eq_self (le_of_lt h), find_eq_self]
    simp; omega

theorem unioned_append (t : List Nat) (u v : Nat) :
    unioned (t ++ [t.length]) u v = unioned t u v := by
  simp [unioned, find_append_len]

theorem valid_append {t : List Nat} (hV : Valid t) : Valid (t ++ [t.length]) := by
  intro r hr
  simp only [List.mem_append, List.mem_singleton] at hr
  rcases hr with hr | hr
  · have := hV r hr; simp; omega
  · subst hr; simp

theorem length_union (t : List Nat) (u v : Nat) :
    (union t u v).length = t.length := by simp [union]

theorem find_union_lt {t : List Nat} {w : Nat} (u v : Nat) (h : w < t.length) :
    find (union t u v) w =
      if find t w = find t v then find t u else find t w := by
  have hw : w < (union t u v).length := by rw [length_union]; exact h
  rw [find_eq_get hw, find_eq_get h]
  simp [union]

theorem find_union_ge {t : List Nat} {w : Nat} (u v : Nat) (h : t.length ≤ w) :
    find (union t u v) w = w := by
  apply find_eq_self; rw [length_union]; exact h

theorem union_valid {t : List Nat} {u v : Nat} (hV : Valid t) (hu : u < t.length) :
    Valid (union t u v) := by
  intro r hr
  rw [length_union]
  simp only [union, List.mem_map] at hr
  obtain ⟨r₀, hr₀, hreq⟩ := hr
  by_cases hc : r₀ = find t v
  · simp only [hc, if_pos rfl] at hreq
    rw [← hreq]; exact find_lt hV hu
  · simp only [if_neg hc] at hreq
    rw [← hreq]; exact hV _ hr₀

theorem union_mono {t : List Nat} {u v : Nat} (hV : Valid t) :
    Mono t (union t u v) := by
  intro x y hxy
  rw [unioned_iff] at hxy ⊢
  rcases Nat.lt_or_ge x t.length with hx | hx
  · rcases Nat.lt_or_ge y t.length with hy | hy
    · rw [find_union_lt u v hx, find_union_lt u v hy, hxy]
    · have h1 : find t x < t.length := find_lt hV hx
      rw [find_eq_self hy] at hxy
      omega
  · rcases Nat.lt_or_ge y t.length with hy | hy
    · have h1 : find t y < t.length := find_lt hV hy
      rw [find_eq_self hx] at hxy
      omega
    · rw [find_eq_self hx, find_eq_self hy] at hxy
      subst hxy
      rfl

/-! ## Class counting -/

theorem toFinset_map_nat (l : List Nat) (f : Nat → Nat) :
    (l.map f).toFinset = l.toFinset.image f := by
  ext x; simp

theorem numClasses_le (t : List Nat) : numClasses t ≤ t.length :=
  List.toFinset_card_le t

theorem numClasses_union {t : List Nat} {u v : Nat}
    (hu : u < t.length) (hv : v < t.length) (h : unioned t u v = false) :
    numClasses (union t u v) + 1 ≤ numClasses t := by
  have hne : find t u ≠ find t v := by
    intro hc
    rw [unioned_iff.mpr hc] at h
    cases h
  have hru : find t u ∈ t.toFinset := List.mem_toFinset.mpr (find_mem hu)
  have hrv : find t v ∈ t.toFinset := List.mem_toFinset.mpr (find_mem hv)
  have himg : (union t u v).toFinset =
      insert (find t u) (t.toFinset.erase (find t v)) := by
    unfold union
    rw [toFinset_map_nat]
    ext x
    simp only [Finset.mem_image, Finset.mem_insert, Finset.mem_erase]
    constructor
    · rintro ⟨a, ha, haeq⟩
      by_cases hc : a = find t v
      · left; rw [← haeq, hc, if_pos rfl]
      · right; rw [← haeq, if_neg hc]; exact ⟨hc, ha⟩
    · rintro (hx | ⟨hx1, hx2⟩)
      · exact ⟨find t v, hrv, by rw [if_pos rfl, hx]⟩
      · exact ⟨x, hx2, by rw [if_neg hx1]⟩
  have hmem : find t u ∈ t.toFinset.erase (find t v) :=
    Finset.mem_erase.mpr ⟨hne, hru⟩
  have hcard : numClasses (union t u v) = t.toFinset.card - 1 := by
    unfold numClasses
    rw [himg, Finset.insert_eq_self.mpr hmem, Finset.card_erase_of_mem hrv]
  have hpos : 1 ≤ t.toFinset.card := Finset.card_pos.mpr ⟨_, hru⟩
  unfold numClasses at *
  omega

/-! ## Bounds on predecessor enumeration -/

theorem mem_predecessor_nodes {edges : List (Nat × Nat)} {n p : Nat}
    (h : p ∈ predecessor_nodes edges n) : ∃ e ∈ edges, e.1 = p ∧ e.2 = n := by
  simp only [predecessor_nodes, List.mem_map, List.mem_filter] at h
  obtain ⟨e, ⟨he, hen⟩, hep⟩ := h
  exact ⟨e, he, hep, by simpa using hen⟩

theorem predecessor_nodes_lt {edges : List (Nat × Nat)} {m n p : Nat}
    (hE : EdgesValid edges m) (h : p ∈ predecessor_nodes edges n) : p < m := by
  obtain ⟨e, he, hep, _⟩ := mem_predecessor_nodes h
  exact hep ▸ (hE e he).1

theorem length_predecessor_nodes_le (edges : List (Nat × Nat)) (n : Nat) :
    (predecessor_nodes edges n).length ≤ edges.length := by
  simp only [predecessor_nodes, List.length_map]
  exact List.length_filter_le _ _

theorem length_unionedKeys_le (t : List Nat) (u : Nat) :
    (unionedKeys t u).length ≤ t.length := by
  simpa [unionedKeys] using List.length_filter_le _ (List.range t.length)

theorem length_flatMap_le {α β : Type} (l : List α) (f : α → List β) (c : Nat)
    (h : ∀ a ∈ l, (f a).length ≤ c) : (l.flatMap f).length ≤ l.length * c := by
  induction l with
  | nil => simp
  | cons a l ih =>
    have h1 := h a (List.mem_cons_self a l)
    have h2 := ih fun x hx => h x (List.mem_cons_of_mem a hx)
    simp only [List.flatMap_cons, List.length_append, List.length_cons, Nat.succ_mul]
    omega

theorem all_preds_lt {edges : List (Nat × Nat)} {t : List Nat} {m u p : Nat}
    (hE : EdgesValid edges m) (h : p ∈ all_preds edges t u) : p < m := by
  simp only [all_preds, List.mem_flatMap] at h
  obtain ⟨k, _, hk⟩ := h
  exact predecessor_nodes_lt hE hk

theorem length_all_preds_le (edges : List (Nat × Nat)) (t : List Nat) (u : Nat) :
    (all_preds edges t u).length ≤ t.length * edges.length := by
  calc (all_preds edges t u).length
      ≤ (unionedKeys t u).length * edges.length :=
        length_flatMap_le _ _ _ fun a _ => length_predecessor_nodes_le edges a
    _ ≤ t.length * edges.length :=
        Nat.mul_le_mul_right _ (length_unionedKeys_le t u)

/-! ## The merge/maybe_merge fixpoint reaches completion within its budget -/

/-- Every request in the worklist names allocated tokens. -/
def WlValid (wl : List (Bool × Nat × Nat)) (n : Nat) : Prop :=
  ∀ r ∈ wl, r.2.1 < n ∧ r.2.2 < n

theorem pair_list_length (us vs : List Nat) :
    ((us.flatMap fun pu => vs.map fun pv => ((false : Bool), pu, pv)).length)
      = us.length * vs.length := by
  induction us with
  | nil => simp
  | cons a us ih => simp [List.flatMap_cons, ih, Nat.succ_mul]; omega

theorem pair_list_mem {us vs : List Nat} {r : Bool × Nat × Nat}
    (h : r ∈ us.flatMap fun pu => vs.map fun pv => ((false : Bool), pu, pv)) :
    r.2.1 ∈ us ∧ r.2.2 ∈ vs := by
  simp only [List.mem_flatMap, List.mem_map] at h
  obtain ⟨pu, hpu, pv, hpv, hr⟩ := h
  subst hr
  exact ⟨hpu, hpv⟩

/-- Main lemma on the merge fixpoint: with the stated fuel budget the loop
completes, the table keeps its length, stays valid, only coarsens the
partition, and the number of classes does not increase.  A non-no-op union
strictly decreases `numClasses` while spawning at most
`(tokens * edges) * (tokens * edges)` new requests, so the measure
`numClasses * B + pending` drops at every step. -/
theorem merge_run_spec {K : Type} [Key K] (edges : List (Nat × Nat)) (nodes : List K) :
    ∀ (fuel : Nat) (t : List Nat) (wl : List (Bool × Nat × Nat)),
      Valid t → EdgesValid edges t.length → WlValid wl t.length →
      numClasses t * (t.length * edges.length * (t.length * edges.length) + 1)
          + wl.length ≤ fuel →
      ∃ t', merge_run fuel edges nodes t wl = some t' ∧
        t'.length = t.length ∧ Valid t' ∧ Mono t t' ∧
        numClasses t' ≤ numClasses t := by
  intro fuel
  induction fuel with
  | zero =>
    intro t wl hV _ _ hle
    have hwl : wl = [] := List.length_eq_zero.mp (by omega)
    subst hwl
    exact ⟨t, rfl, rfl, hV, Mono.rfl, le_refl _⟩
  | succ fuel ih =>
    intro t wl hV hE hW hle
    match wl with
    | [] => exact ⟨t, rfl, rfl, hV, Mono.rfl, le_refl _⟩
    | (force, u, v) :: rest =>
      obtain ⟨hu, hv⟩ := hW _ (List.mem_cons_self _ _)
      simp only [List.length_cons] at hle
      have hWrest : WlValid rest t.length :=
        fun r hr => hW r (List.mem_cons_of_mem _ hr)
      by_cases huv : unioned t u v = true
      · rw [show merge_run (fuel + 1) edges nodes t ((force, u, v) :: rest)
              = merge_run fuel edges nodes t rest by
            simp [merge_run, huv]]
        exact ih t rest hV hE hWrest (by omega)
      · rw [Bool.not_eq_true] at huv
        by_cases hgo : (force || (shallow_eq nodes u v && congruent edges t u v)) = true
        · -- the union branch
          set t₁ := union t u v with ht₁
          set pairs := (all_preds edges t u).flatMap
              (fun pu => (all_preds edges t v).map fun pv => ((false : Bool), pu, pv))
            with hpairs
          rw [show merge_run (fuel + 1) edges nodes t ((force, u, v) :: rest)
                = merge_run fuel edges nodes t₁ (pairs ++ rest) by
              simp [merge_run, huv, hgo]]
          have hlen₁ : t₁.length = t.length := length_union t u v
          have hV₁ : Valid t₁ := union_valid hV hu
          have hE₁ : EdgesValid edges t₁.length := by rw [hlen₁]; exact hE
          have hW₁ : WlValid (pairs ++ rest) t₁.length := by
            rw [hlen₁]
            intro r hr
            rcases List.mem_append.mp hr with hr | hr
            · obtain ⟨h1, h2⟩ := pair_list_mem (hpairs ▸ hr)
              exact ⟨all_preds_lt hE h1, all_preds_lt hE h2⟩
            · exact hWrest r hr
          have hc₁ : numClasses t₁ + 1 ≤ numClasses t := numClasses_union hu hv huv
          have hplen : pairs.length ≤ t.length * edges.length * (t.length * edges.length) := by
            rw [hpairs, pair_list_length]
            exact Nat.mul_le_mul (length_all_preds_le edges t u)
              (length_all_preds_le edges t v)
          have hle₁ : numClasses t₁ *
                (t₁.length * edges.length * (t₁.length * edges.length) + 1)
                + (pairs ++ rest).length ≤ fuel := by
            rw [hlen₁, List.length_append]
            set B := t.length * edges.length * (t.length * edges.length) + 1 with hB
            have hmul : (numClasses t₁ + 1) * B ≤ numClasses t * B :=
              Nat.mul_le_mul_right _ hc₁
            have hsm : (numClasses t₁ + 1) * B = numClasses t₁ * B + B := by ring
            omega
          obtain ⟨t', heq, hlen', hV', hM', hc'⟩ := ih t₁ (pairs ++ rest) hV₁ hE₁ hW₁ hle₁
          exact ⟨t', heq, by rw [hlen', hlen₁], hV',
            (union_mono hV).comp hM', le_trans hc' (by omega)⟩
        · rw [show merge_run (fuel + 1) edges nodes t ((force, u, v) :: rest)
                = merge_run fuel edges nodes t rest by
              simp only [merge_run, huv, Bool.false_eq_true, if_false, hgo]]
          exact ih t rest hV hE hWrest (by omega)

/-! ## Lookup lemmas for the interning map -/

theorem lookupKey_mem {K : Type} [DecidableEq K] :
    ∀ {m : List (K × Nat)} {k : K} {t : Nat},
      lookupKey m k = some t → (k, t) ∈ m := by
  intro m
  induction m with
  | nil => intro k t h; cases h
  | cons p rest ih =>
    intro k t h
    rw [lookupKey] at h
    by_cases hk : p.1 = k
    · rw [if_pos hk] at h
      cases h
      rw [← hk]
      exact List.mem_cons_self p rest
    · rw [if_neg hk] at h
      exact List.mem_cons_of_mem _ (ih h)

theorem lookupKey_append_left {K : Type} [DecidableEq K] :
    ∀ {m : List (K × Nat)} (m₂ : List (K × Nat)) {k : K} {t : Nat},
      lookupKey m k = some t → lookupKey (m ++ m₂) k = some t := by
  intro m
  induction m with
  | nil => intro m₂ k t h; cases h
  | cons p rest ih =>
    intro m₂ k t h
    rw [lookupKey] at h
    rw [List.cons_append, lookupKey]
    by_cases hk : p.1 = k
    · rwa [if_pos hk] at h ⊢
    · rw [if_neg hk] at h ⊢
      exact ih m₂ h

theorem lookupKey_append_none {K : Type} [DecidableEq K] :
    ∀ {m : List (K × Nat)} (m₂ : List (K × Nat)) {k : K},
      lookupKey m k = none → lookupKey (m ++ m₂) k = lookupKey m₂ k := by
  intro m
  induction m with
  | nil => intro m₂ k _; rfl
  | cons p rest ih =>
    intro m₂ k h
    rw [lookupKey] at h
    rw [List.cons_append, lookupKey]
    by_cases hk : p.1 = k
    · rw [if_pos hk] at h; cases h
    · rw [if_neg hk] at h ⊢
      exact ih m₂ h

/-! ## Inversion of new_token -/

theorem new_token_of_present {K : Type} [DecidableEq K] {cc : CC K} {k : K}
    {t : Nat} (h : lookupKey cc.map k = some t) :
    new_token cc k = some (false, t, cc) := by
  rw [new_token, h]

theorem new_token_false {K : Type} [DecidableEq K] {cc cc₁ : CC K} {k : K}
    {t : Nat} (h : new_token cc k = some (false, t, cc₁)) :
    cc₁ = cc ∧ lookupKey cc.map k = some t := by
  rw [new_token] at h
  cases hl : lookupKey cc.map k with
  | some t' =>
    rw [hl] at h
    cases h
    exact ⟨rfl, rfl⟩
  | none =>
    rw [hl] at h
    simp only [newKey] at h
    by_cases hc : cc.table.length = cc.nodes.length
    · rw [if_pos hc] at h; cases h
    · rw [if_neg hc] at h; cases h

theorem new_token_true {K : Type} [DecidableEq K] {cc cc₁ : CC K} {k : K}
    {t : Nat} (h : new_token cc k = some (true, t, cc₁)) :
    lookupKey cc.map k = none ∧ t = cc.table.length ∧
      cc₁ = { cc with
                map := cc.map ++ [(k, cc.table.length)]
                table := cc.table ++ [cc.table.length]
                nodes := cc.nodes ++ [k] } := by
  rw [new_token] at h
  cases hl : lookupKey cc.map k with
  | some t' => rw [hl] at h; cases h
  | none =>
    rw [hl] at h
    simp only [newKey] at h
    by_cases hc : cc.table.length = cc.nodes.length
    · rw [if_pos hc] at h
      cases h
      exact ⟨rfl, rfl, rfl⟩
    · rw [if_neg hc] at h; cases h

theorem new_token_fresh {K : Type} [DecidableEq K] {cc : CC K} {k : K}
    (hl : lookupKey cc.map k = none) (hlen : cc.table.length = cc.nodes.length) :
    new_token cc k = some (true, cc.table.length,
      { cc with
          map := cc.map ++ [(k, cc.table.length)]
          table := cc.table ++ [cc.table.length]
          nodes := cc.nodes ++ [k] }) := by
  rw [new_token, hl]
  simp only [newKey]
  rw [if_pos hlen]

/-! ## The predecessor and successor loops of add -/

theorem pred_loop_spec {K : Type} [Key K] (edges : List (Nat × Nat)) (nodes : List K) :
    ∀ (ps : List Nat) (t : List Nat) (tok : Nat),
      Valid t → EdgesValid edges t.length → tok < t.length →
      (∀ p ∈ ps, p < t.length) →
      ∃ t', pred_loop edges nodes t tok ps = some t' ∧
        t'.length = t.length ∧ Valid t' ∧ Mono t t' := by
  intro ps
  induction ps with
  | nil => intro t tok hV _ _ _; exact ⟨t, rfl, rfl, hV, Mono.rfl⟩
  | cons p ps ih =>
    intro t tok hV hE htok hps
    have hp : p < t.length := hps p (List.mem_cons_self _ _)
    have hwl : WlValid [((false : Bool), tok, p)] t.length := by
      intro r hr
      rw [List.mem_singleton] at hr
      subst hr
      exact ⟨htok, hp⟩
    have hfuel : numClasses t *
        (t.length * edges.length * (t.length * edges.length) + 1)
        + ([((false : Bool), tok, p)]).length ≤ mergeFuel t edges := by
      rw [mergeFuel]; simp
    obtain ⟨t₁, heq, hlen₁, hV₁, hM₁, _⟩ :=
      merge_run_spec edges nodes (mergeFuel t edges) t [(false, tok, p)] hV hE hwl hfuel
    rw [pred_loop, heq]
    obtain ⟨t', heq', hlen', hV', hM'⟩ := ih t₁ tok hV₁ (hlen₁ ▸ hE)
      (hlen₁ ▸ htok) (fun q hq => hlen₁ ▸ hps q (List.mem_cons_of_mem _ hq))
    exact ⟨t', heq', by rw [hlen', hlen₁], hV', hM₁.comp hM'⟩

theorem edges_valid_mono {edges : List (Nat × Nat)} {n m : Nat}
    (h : n ≤ m) (hE : EdgesValid edges n) : EdgesValid edges m :=
  fun e he => ⟨lt_of_lt_of_le (hE e he).1 h, lt_of_lt_of_le (hE e he).2 h⟩

theorem edges_valid_append {edges : List (Nat × Nat)} {n : Nat} {a b : Nat}
    (hE : EdgesValid edges n) (ha : a < n) (hb : b < n) :
    EdgesValid (edges ++ [(a, b)]) n := by
  intro e he
  rcases List.mem_append.mp he with he | he
  · exact hE e he
  · rw [List.mem_singleton] at he
    subst he
    exact ⟨ha, hb⟩

theorem add_edges_spec {K : Type} [DecidableEq K] [Key K] :
    ∀ (ss : List Nat) (cc : CC K) (tok : Nat),
      Valid cc.table → EdgesValid cc.edges cc.table.length →
      tok < cc.table.length → (∀ s ∈ ss, s < cc.table.length) →
      ∃ cc', add_edges cc tok ss = some cc' ∧
        cc'.map = cc.map ∧ cc'.nodes = cc.nodes ∧
        cc'.table.length = cc.table.length ∧ Valid cc'.table ∧
        Mono cc.table cc'.table ∧ EdgesValid cc'.edges cc'.table.length := by
  intro ss
  induction ss with
  | nil =>
    intro cc tok hV hE _ _
    exact ⟨cc, rfl, rfl, rfl, rfl, hV, Mono.rfl, hE⟩
  | cons s ss ih =>
    intro cc tok hV hE htok hss
    have hs : s < cc.table.length := hss s (List.mem_cons_self _ _)
    have hE' : EdgesValid (cc.edges ++ [(tok, s)]) cc.table.length :=
      edges_valid_append hE htok hs
    have hpreds : ∀ p ∈ predecessor_nodes cc.edges tok, p < cc.table.length :=
      fun p hp => predecessor_nodes_lt hE hp
    obtain ⟨t₁, heq₁, hlen₁, hV₁, hM₁⟩ :=
      pred_loop_spec (cc.edges ++ [(tok, s)]) cc.nodes
        (predecessor_nodes cc.edges tok) cc.table tok hV hE' htok hpreds
    rw [add_edges, heq₁]
    set cc₁ : CC K := { cc with edges := cc.edges ++ [(tok, s)], table := t₁ }
      with hcc₁
    obtain ⟨cc', heq', hmap', hnodes', hlen', hV', hM', hE₂⟩ :=
      ih cc₁ tok hV₁ (by rw [hcc₁]; simpa [hlen₁] using hE')
        (by simpa [hcc₁, hlen₁] using htok)
        (by intro q hq; simpa [hcc₁, hlen₁] using hss q (List.mem_cons_of_mem _ hq))
    refine ⟨cc', heq', by rw [hmap'], by rw [hnodes'], ?_, hV', hM₁.comp hM', hE₂⟩
    rw [hlen']
    simpa [hcc₁] using hlen₁

/-! ## The public add always completes within its fuel budget -/

/-- Total size of a list of keys. -/
def sizeL {K : Type} [Key K] (l : List K) : Nat := (l.map Key.size).sum

theorem sizeL_nil {K : Type} [Key K] : sizeL ([] : List K) = 0 := rfl

theorem sizeL_cons {K : Type} [Key K] (k : K) (ks : List K) :
    sizeL (k :: ks) = Key.size k + sizeL ks := by
  simp [sizeL]

theorem size_pos {K : Type} [Key K] (k : K) : 1 ≤ Key.size k :=
  Nat.one_le_iff_ne_zero.mpr fun h => by
    have := Key.size_spec k
    omega

theorem sizeL_successors_lt {K : Type} [Key K] (k : K) :
    sizeL (Key.successors k) < Key.size k := Key.size_spec k

theorem mono_append (t : List Nat) : Mono t (t ++ [t.length]) := by
  intro u v h
  rw [unioned_append]
  exact h

/-- Main lemma on `add_run`: under the state invariant and with fuel at least
`2 * sizeL l + 1` the run completes; it preserves the invariant, only extends
the interning map, only coarsens the partition, interns every processed key
at the returned token, and returns allocated tokens. -/
theorem add_run_spec {K : Type} [DecidableEq K] [Key K] :
    ∀ (fuel : Nat) (l : List K) (cc : CC K), CCInv cc → 2 * sizeL l + 1 ≤ fuel →
    ∃ ts cc', add_run fuel cc l = some (ts, cc') ∧ CCInv cc' ∧
      cc.table.length ≤ cc'.table.length ∧
      Mono cc.table cc'.table ∧
      (∀ k' t', lookupKey cc.map k' = some t' → lookupKey cc'.map k' = some t') ∧
      List.Forall₂ (fun k tk => lookupKey cc'.map k = some tk) l ts ∧
      (∀ tk ∈ ts, tk < cc'.table.length) := by
  intro fuel
  induction fuel with
  | zero => intro l cc _ hle; omega
  | succ fuel ih =>
    intro l cc hI hle
    match l with
    | [] =>
      exact ⟨[], cc, rfl, hI, le_refl _, Mono.rfl, fun _ _ h => h,
        List.Forall₂.nil, fun _ h => absurd h (List.not_mem_nil _)⟩
    | k :: ks =>
      rw [sizeL_cons] at hle
      have hszk := size_pos k
      cases hnt : lookupKey cc.map k with
      | some t =>
        -- the key is already interned: `add` returns at once
        obtain ⟨ts, cc₂, heq₂, hI₂, hlen₂, hM₂, hmap₂, hF₂, hts₂⟩ :=
          ih ks cc hI (by omega)
        refine ⟨t :: ts, cc₂, ?_, hI₂, hlen₂, hM₂, hmap₂,
          List.Forall₂.cons (hmap₂ k t hnt) hF₂, ?_⟩
        · simp only [add_run, new_token_of_present hnt, heq₂]
        · intro tk htk
          rcases List.mem_cons.mp htk with h | h
          · subst h
            exact lt_of_lt_of_le (hI.map_valid _ (lookupKey_mem hnt)) hlen₂
          · exact hts₂ tk h
      | none =>
        -- fresh key: intern it, recursively add the successors, run the
        -- successor loop, then continue with the remaining keys
        have hfuel_s : 2 * sizeL (Key.successors k) + 1 ≤ fuel := by
          have h1 := sizeL_successors_lt k
          omega
        have hfuel_ks : 2 * sizeL ks + 1 ≤ fuel := by omega
        have hI₁ : CCInv { cc with
            map := cc.map ++ [(k, cc.table.length)]
            table := cc.table ++ [cc.table.length]
            nodes := cc.nodes ++ [k] } := by
          refine ⟨?_, valid_append hI.valid, ?_, ?_⟩
          · simp [hI.len_eq]
          · simp only [List.length_append, List.length_cons, List.length_nil]
            exact edges_valid_mono (by omega) hI.edges_valid
          · intro p hp
            simp only [List.length_append, List.length_cons, List.length_nil]
            rcases List.mem_append.mp hp with hp | hp
            · have := hI.map_valid p hp; omega
            · rw [List.mem_singleton] at hp
              subst hp
              simp
        obtain ⟨ss, cc₂, heq₂, hI₂, hlen₂, hM₂, hmap₂, hF₂, hss₂⟩ :=
          ih (Key.successors k) _ hI₁ hfuel_s
        simp only [List.length_append, List.length_cons, List.length_nil] at hlen₂
        have htok₂ : cc.table.length < cc₂.table.length := by omega
        obtain ⟨cc₃, heq₃, hmap₃, hnodes₃, hlen₃, hV₃, hM₃, hE₃⟩ :=
          add_edges_spec ss cc₂ cc.table.length hI₂.valid hI₂.edges_valid
            htok₂ hss₂
        have hI₃ : CCInv cc₃ :=
          ⟨by rw [hlen₃, hnodes₃]; exact hI₂.len_eq, hV₃, hE₃,
           by rw [hmap₃, hlen₃]; exact hI₂.map_valid⟩
        obtain ⟨ts, cc₄, heq₄, hI₄, hlen₄, hM₄, hmap₄, hF₄, hts₄⟩ :=
          ih ks cc₃ hI₃ hfuel_ks
        have hmaps : ∀ k' t', lookupKey cc.map k' = some t' →
            lookupKey cc₄.map k' = some t' := by
          intro k' t' h
          apply hmap₄
          rw [hmap₃]
          exact hmap₂ k' t' (lookupKey_append_left _ h)
        have hlookup_k : lookupKey cc₄.map k = some cc.table.length := by
          apply hmap₄
          rw [hmap₃]
          apply hmap₂
          rw [lookupKey_append_none _ hnt, lookupKey, if_pos rfl]
        refine ⟨cc.table.length :: ts, cc₄, ?_, hI₄, ?_, ?_, hmaps,
          List.Forall₂.cons hlookup_k hF₄, ?_⟩
        · simp only [add_run, new_token_fresh hnt hI.len_eq, heq₂, heq₃, heq₄]
        · omega
        · exact (mono_append cc.table).comp (hM₂.comp (hM₃.comp hM₄))
        · intro tk htk
          rcases List.mem_cons.mp htk with h | h
          · subst h; omega
          · exact hts₄ tk h

/-! ## Unconditional facts about the interning map -/

theorem add_edges_map {K : Type} [DecidableEq K] [Key K] :
    ∀ (ss : List Nat) (cc : CC K) (tok : Nat) (cc' : CC K),
      add_edges cc tok ss = some cc' → cc'.map = cc.map := by
  intro ss
  induction ss with
  | nil => intro cc tok cc' h; cases h; rfl
  | cons s ss ih =>
    intro cc tok cc' h
    rw [add_edges] at h
    split at h
    · cases h
    · exact Eq.trans (ih _ tok cc' h) rfl

/-- Inversion of one step of `add_run` on a non-empty key list. -/
theorem add_run_cons {K : Type} [DecidableEq K] [Key K] {fuel : Nat}
    {cc cc' : CC K} {k : K} {ks : List K} {ts : List Nat}
    (h : add_run (fuel + 1) cc (k :: ks) = some (ts, cc')) :
    (∃ t ts', new_token cc k = some (false, t, cc) ∧
        add_run fuel cc ks = some (ts', cc') ∧ ts = t :: ts') ∨
    (∃ t cc₁ ss cc₂ cc₃ ts', new_token cc k = some (true, t, cc₁) ∧
        add_run fuel cc₁ (Key.successors k) = some (ss, cc₂) ∧
        add_edges cc₂ t ss = some cc₃ ∧
        add_run fuel cc₃ ks = some (ts', cc') ∧ ts = t :: ts') := by
  simp only [add_run] at h
  split at h
  · cases h
  · rename_i t cc₁ hnt
    split at h
    · cases h
    · rename_i p ts₂ cc₂ har
      cases h
      obtain ⟨hcc, _⟩ := new_token_false hnt
      subst hcc
      exact Or.inl ⟨t, ts₂, hnt, har, rfl⟩
  · rename_i t cc₁ hnt
    split at h
    · cases h
    · rename_i p ss cc₂ hs
      split at h
      · cases h
      · rename_i cc₃ he
        split at h
        · cases h
        · rename_i q ts₄ cc₄ hr
          cases h
          exact Or.inr ⟨t, cc₁, ss, cc₂, cc₃, ts₄, hnt, hs, he, hr, rfl⟩

theorem add_run_map {K : Type} [DecidableEq K] [Key K] :
    ∀ (fuel : Nat) (l : List K) (cc : CC K) (ts : List Nat) (cc' : CC K),
      add_run fuel cc l = some (ts, cc') →
      (∀ k' t', lookupKey cc.map k' = some t' → lookupKey cc'.map k' = some t') ∧
      List.Forall₂ (fun k tk => lookupKey cc'.map k = some tk) l ts := by
  intro fuel
  induction fuel with
  | zero => intro l cc ts cc' h; cases h
  | succ fuel ih =>
    intro l cc ts cc' h
    match l with
    | [] =>
      rw [add_run] at h
      cases h
      exact ⟨fun _ _ hx => hx, List.Forall₂.nil⟩
    | k :: ks =>
      rcases add_run_cons h with
        ⟨t, ts', hnt, har, hts⟩ | ⟨t, cc₁, ss, cc₂, cc₃, ts', hnt, hs, he, hr, hts⟩
      · subst hts
        obtain ⟨_, hlk⟩ := new_token_false hnt
        obtain ⟨hmap₂, hF₂⟩ := ih ks cc ts' cc' har
        exact ⟨hmap₂, List.Forall₂.cons (hmap₂ k t hlk) hF₂⟩
      · subst hts
        obtain ⟨hlk, ht, hcc₁⟩ := new_token_true hnt
        subst ht
        obtain ⟨hmap₂, _⟩ := ih _ cc₁ ss cc₂ hs
        have hmap₃ : cc₃.map = cc₂.map := add_edges_map ss cc₂ _ cc₃ he
        obtain ⟨hmap₄, hF₄⟩ := ih ks cc₃ ts' cc' hr
        have hchain : ∀ k' t', lookupKey cc.map k' = some t' →
            lookupKey cc'.map k' = some t' := by
          intro k' t' hx
          apply hmap₄
          rw [hmap₃]
          apply hmap₂
          rw [hcc₁]
          exact lookupKey_append_left _ hx
        have hk : lookupKey cc'.map k = some cc.table.length := by
          apply hmap₄
          rw [hmap₃]
          apply hmap₂
          rw [hcc₁]
          show lookupKey (cc.map ++ [(k, cc.table.length)]) k
              = some cc.table.length
          rw [lookupKey_append_none _ hlk, lookupKey, if_pos rfl]
        exact ⟨hchain, List.Forall₂.cons hk hF₄⟩

/-! ## Facts about the public operations -/

theorem add_some {K : Type} [DecidableEq K] [Key K] {cc cc' : CC K} {k : K} {t : Nat}
    (h : CC.add cc k = some (t, cc')) :
    ∃ ts, add_run (2 * Key.size k + 1) cc [k] = some (t :: ts, cc') := by
  rw [CC.add] at h
  split at h
  · rename_i t₀ ts₀ cc₀ har
    cases h
    exact ⟨ts₀, har⟩
  · cases h

theorem CC.add_map {K : Type} [DecidableEq K] [Key K] {cc cc' : CC K} {k : K} {t : Nat}
    (h : CC.add cc k = some (t, cc')) :
    (∀ k' t', lookupKey cc.map k' = some t' → lookupKey cc'.map k' = some t') ∧
      lookupKey cc'.map k = some t := by
  obtain ⟨ts, har⟩ := add_some h
  obtain ⟨hmap, hF⟩ := add_run_map _ _ _ _ _ har
  cases hF with
  | cons hrel _ => exact ⟨hmap, hrel⟩

/-- An already-interned key is returned as is: the whole engine state is
unchanged (src/src/cc/mod.rs:74-76). -/
theorem add_present {K : Type} [DecidableEq K] [Key K] {cc : CC K} {k : K} {t : Nat}
    (h : lookupKey cc.map k = some t) : CC.add cc k = some (t, cc) := by
  rw [CC.add, show 2 * Key.size k + 1 = ((2 * Key.size k - 1) + 1) + 1 by
    have := size_pos k
    omega]
  simp only [add_run, new_token_of_present h]

theorem merged_some {K : Type} [DecidableEq K] [Key K] {cc cc' : CC K} {k1 k2 : K}
    {b : Bool} (h : CC.merged cc k1 k2 = some (b, cc')) :
    ∃ t1 cc₁ t2, CC.add cc k1 = some (t1, cc₁) ∧ CC.add cc₁ k2 = some (t2, cc') ∧
      b = unioned cc'.table t1 t2 := by
  rw [CC.merged] at h
  split at h
  · cases h
  · rename_i t1 cc₁ h1
    split at h
    · cases h
    · rename_i t2 cc₂ h2
      cases h
      exact ⟨t1, cc₁, t2, h1, h2, rfl⟩

theorem merge_some {K : Type} [DecidableEq K] [Key K] {cc cc' : CC K} {k1 k2 : K}
    (h : CC.merge cc k1 k2 = some cc') :
    ∃ t1 cc₁ t2 cc₂ t', CC.add cc k1 = some (t1, cc₁) ∧
      CC.add cc₁ k2 = some (t2, cc₂) ∧
      merge_run (mergeFuel cc₂.table cc₂.edges) cc₂.edges cc₂.nodes cc₂.table
        [(true, t1, t2)] = some t' ∧
      cc' = { cc₂ with table := t' } := by
  rw [CC.merge] at h
  split at h
  · cases h
  · rename_i t1 cc₁ h1
    split at h
    · cases h
    · rename_i t2 cc₂ h2
      split at h
      · cases h
      · rename_i t' h3
        cases h
        exact ⟨t1, cc₁, t2, cc₂, t', h1, h2, h3, rfl⟩

/-- `merged` on two already-interned keys changes nothing and reports the
current `unioned` state. -/
theorem merged_of_present {K : Type} [DecidableEq K] [Key K] {cc : CC K}
    {a b : K} {ta tb : Nat} (ha : lookupKey cc.map a = some ta)
    (hb : lookupKey cc.map b = some tb) :
    CC.merged cc a b = some (unioned cc.table ta tb, cc) := by
  simp only [CC.merged, add_present ha, add_present hb]

/-! ## Operation specifications under the state invariant -/

theorem add_op_spec {K : Type} [DecidableEq K] [Key K] {cc : CC K}
    (hI : CCInv cc) (k : K) :
    ∃ t cc', CC.add cc k = some (t, cc') ∧ CCInv cc' ∧
      cc.table.length ≤ cc'.table.length ∧ Mono cc.table cc'.table ∧
      (∀ k' t', lookupKey cc.map k' = some t' → lookupKey cc'.map k' = some t') ∧
      lookupKey cc'.map k = some t ∧ t < cc'.table.length := by
  have hsz : sizeL [k] = Key.size k := by simp [sizeL]
  obtain ⟨ts, cc', heq, hI', hlen, hM, hmap, hF, hts⟩ :=
    add_run_spec (2 * Key.size k + 1) [k] cc hI (by rw [hsz])
  cases hF with
  | cons hrel hnil =>
    cases hnil
    refine ⟨_, cc', ?_, hI', hlen, hM, hmap, hrel,
      hts _ (List.mem_cons_self _ _)⟩
    simp only [CC.add, heq]

theorem merged_op_spec {K : Type} [DecidableEq K] [Key K] {cc : CC K}
    (hI : CCInv cc) (k1 k2 : K) :
    ∃ b cc', CC.merged cc k1 k2 = some (b, cc') ∧ CCInv cc' ∧
      cc.table.length ≤ cc'.table.length ∧ Mono cc.table cc'.table ∧
      (∀ k' t', lookupKey cc.map k' = some t' → lookupKey cc'.map k' = some t') := by
  obtain ⟨t1, cc₁, h1, hI₁, hlen₁, hM₁, hmap₁, _, _⟩ := add_op_spec hI k1
  obtain ⟨t2, cc₂, h2, hI₂, hlen₂, hM₂, hmap₂, _, _⟩ := add_op_spec hI₁ k2
  refine ⟨unioned cc₂.table t1 t2, cc₂, ?_, hI₂, le_trans hlen₁ hlen₂,
    hM₁.comp hM₂, fun k' t' hx => hmap₂ _ _ (hmap₁ _ _ hx)⟩
  simp only [CC.merged, h1, h2]

theorem merge_op_spec {K : Type} [DecidableEq K] [Key K] {cc : CC K}
    (hI : CCInv cc) (k1 k2 : K) :
    ∃ cc', CC.merge cc k1 k2 = some cc' ∧ CCInv cc' ∧
      cc.table.length ≤ cc'.table.length ∧ Mono cc.table cc'.table ∧
      (∀ k' t', lookupKey cc.map k' = some t' → lookupKey cc'.map k' = some t') := by
  obtain ⟨t1, cc₁, h1, hI₁, hlen₁, hM₁, hmap₁, _, ht1⟩ := add_op_spec hI k1
  obtain ⟨t2, cc₂, h2, hI₂, hlen₂, hM₂, hmap₂, _, ht2⟩ := add_op_spec hI₁ k2
  have ht1' : t1 < cc₂.table.length := lt_of_lt_of_le ht1 hlen₂
  have hwl : WlValid [((true : Bool), t1, t2)] cc₂.table.length := by
    intro r hr
    rw [List.mem_singleton] at hr
    subst hr
    exact ⟨ht1', ht2⟩
  have hfuel : numClasses cc₂.table *
      (cc₂.table.length * cc₂.edges.length *
        (cc₂.table.length * cc₂.edges.length) + 1)
      + ([((true : Bool), t1, t2)]).length ≤ mergeFuel cc₂.table cc₂.edges := by
    rw [mergeFuel]
    simp
  obtain ⟨t', hmr, hlen', hV', hM', _⟩ :=
    merge_run_spec cc₂.edges cc₂.nodes (mergeFuel cc₂.table cc₂.edges)
      cc₂.table [(true, t1, t2)] hI₂.valid hI₂.edges_valid hwl hfuel
  have hI' : CCInv { cc₂ with table := t' } := by
    refine ⟨?_, hV', ?_, ?_⟩
    · show t'.length = cc₂.nodes.length
      rw [hlen']
      exact hI₂.len_eq
    · show EdgesValid cc₂.edges t'.length
      rw [hlen']
      exact hI₂.edges_valid
    · intro p hp
      show p.2 < t'.length
      rw [hlen']
      exact hI₂.map_valid p hp
  refine ⟨{ cc₂ with table := t' }, ?_, hI', ?_, hM₁.comp (hM₂.comp hM'), 
    fun k' t'' hx => hmap₂ _ _ (hmap₁ _ _ hx)⟩
  · simp only [CC.merge, h1, h2, hmr]
  · show cc.table.length ≤ t'.length
    rw [hlen']
    omega

/-! ## Sequences of public operations -/

/-- One public operation performed on the engine
(src/src/cc/mod.rs:67, 132, 138). -/
inductive Step {K : Type} [DecidableEq K] [Key K] : CC K → CC K → Prop
  | add (cc : CC K) (k : K) (t : Nat) (cc' : CC K) :
      CC.add cc k = some (t, cc') → Step cc cc'
  | merge (cc : CC K) (k1 k2 : K) (cc' : CC K) :
      CC.merge cc k1 k2 = some cc' → Step cc cc'
  | merged (cc : CC K) (k1 k2 : K) (b : Bool) (cc' : CC K) :
      CC.merged cc k1 k2 = some (b, cc') → Step cc cc'

/-- Any finite sequence of public operations. -/
inductive Steps {K : Type} [DecidableEq K] [Key K] : CC K → CC K → Prop
  | refl (cc : CC K) : Steps cc cc
  | tail {cc cc₁ cc₂ : CC K} : Steps cc cc₁ → Step cc₁ cc₂ → Steps cc cc₂

/-- A state reachable from the empty engine by public operations. -/
def Reachable {K : Type} [DecidableEq K] [Key K] (cc : CC K) : Prop :=
  Steps (CC.empty K) cc

theorem step_map {K : Type} [DecidableEq K] [Key K] {cc cc' : CC K}
    (h : Step cc cc') :
    ∀ k t, lookupKey cc.map k = some t → lookupKey cc'.map k = some t := by
  cases h with
  | add k t _ ha => exact (CC.add_map ha).1
  | merge k1 k2 _ hm =>
    obtain ⟨t1, cc₁, t2, cc₂, t', h1, h2, _, hcc'⟩ := merge_some hm
    intro k t hx
    subst hcc'
    show lookupKey cc₂.map k = some t
    exact (CC.add_map h2).1 _ _ ((CC.add_map h1).1 _ _ hx)
  | merged k1 k2 b _ hm =>
    obtain ⟨t1, cc₁, t2, h1, h2, _⟩ := merged_some hm
    intro k t hx
    exact (CC.add_map h2).1 _ _ ((CC.add_map h1).1 _ _ hx)

theorem step_inv_mono {K : Type} [DecidableEq K] [Key K] {cc cc' : CC K}
    (h : Step cc cc') (hI : CCInv cc) :
    CCInv cc' ∧ cc.table.length ≤ cc'.table.length ∧ Mono cc.table cc'.table := by
  cases h with
  | add k t _ ha =>
    obtain ⟨t₀, cc₀, heq, hI', hlen, hM, _, _, _⟩ := add_op_spec hI k
    rw [heq] at ha
    cases ha
    exact ⟨hI', hlen, hM⟩
  | merge k1 k2 _ hm =>
    obtain ⟨cc₀, heq, hI', hlen, hM, _⟩ := merge_op_spec hI k1 k2
    rw [heq] at hm
    cases hm
    exact ⟨hI', hlen, hM⟩
  | merged k1 k2 b _ hm =>
    obtain ⟨b₀, cc₀, heq, hI', hlen, hM, _⟩ := merged_op_spec hI k1 k2
    rw [heq] at hm
    cases hm
    exact ⟨hI', hlen, hM⟩

theorem steps_map {K : Type} [DecidableEq K] [Key K] {cc cc' : CC K}
    (h : Steps cc cc') :
    ∀ k t, lookupKey cc.map k = some t → lookupKey cc'.map k = some t := by
  induction h with
  | refl => exact fun _ _ hx => hx
  | tail _ hstep ih => exact fun k t hx => step_map hstep k t (ih k t hx)

theorem steps_inv_mono {K : Type} [DecidableEq K] [Key K] {cc cc' : CC K}
    (h : Steps cc cc') (hI : CCInv cc) :
    CCInv cc' ∧ cc.table.length ≤ cc'.table.length ∧ Mono cc.table cc'.table := by
  induction h with
  | refl => exact ⟨hI, le_refl _, Mono.rfl⟩
  | tail _ hstep ih =>
    obtain ⟨hI₁, hlen₁, hM₁⟩ := ih
    obtain ⟨hI₂, hlen₂, hM₂⟩ := step_inv_mono hstep hI₁
    exact ⟨hI₂, le_trans hlen₁ hlen₂, hM₁.comp hM₂⟩

theorem inv_empty (K : Type) : CCInv (CC.empty K) := by
  refine ⟨rfl, ?_, ?_, ?_⟩ <;> intro x hx <;> cases hx

theorem reachable_inv {K : Type} [DecidableEq K] [Key K] {cc : CC K}
    (h : Reachable cc) : CCInv cc :=
  (steps_inv_mono h (inv_empty K)).1

/-! ## Concrete engine states used by the scenario theorems -/

/-- The engine after `add(atom 0)` from empty. -/
def ccA0 : CC Term := ⟨[(Term.atom 0, 0)], [0], [Term.atom 0], []⟩

/-- The engine after `merge(atom 1, atom 2)` from empty. -/
def ccM : CC Term :=
  ⟨[(Term.atom 1, 0), (Term.atom 2, 1)], [0, 0], [Term.atom 1, Term.atom 2], []⟩

/-- The engine after `merged(atom 1, atom 2)` from empty (no merge occurs). -/
def ccAB : CC Term :=
  ⟨[(Term.atom 1, 0), (Term.atom 2, 1)], [0, 1], [Term.atom 1, Term.atom 2], []⟩

/-- The engine after `merged(atom 3, atom 3)` from empty. -/
def ccA3 : CC Term := ⟨[(Term.atom 3, 0)], [0], [Term.atom 3], []⟩

/-! ## The claims -/

/-- C1: the congruence-closure invariant is violated by the code.  After
`merge(a, b); add(f(a)); add(f(b))` the tokens of `f(a)` and `f(b)` are
shallow-equal and congruent (their single successors are unioned), yet they
are not in the same equivalence class: `add`'s propagation loop collects the
predecessors of the brand-new node (src/src/cc/mod.rs:100), which are always
empty, instead of the parents of each successor's class, so add-time
congruence propagation never fires. -/
theorem congruence_invariant_violation :
    ((CC.merge (CC.empty Term) (Term.atom 1) (Term.atom 2)).bind fun cc =>
      (CC.add cc (Term.f1 0 (Term.atom 1))).bind fun p =>
      (CC.add p.2 (Term.f1 0 (Term.atom 2))).map fun q =>
        (shallow_eq q.2.nodes p.1 q.1,
         congruent q.2.edges q.2.table p.1 q.1,
         unioned q.2.table p.1 q.1))
    = some (true, true, false) := by decide

/-- C2: insertion-order symmetry fails on the code.  With `merge(a, b)`
established before `add(f(a))` and `add(f(b))`, the call `merged(f(a), f(b))`
returns `false` (the spec requires `true`), because the predecessor snapshot
in `add` (src/src/cc/mod.rs:100) looks at the new node instead of the
successor's class. -/
theorem insertion_order_symmetry_bug :
    ((CC.merge (CC.empty Term) (Term.atom 1) (Term.atom 2)).bind fun cc =>
      (CC.add cc (Term.f1 0 (Term.atom 1))).bind fun p =>
      (CC.add p.2 (Term.f1 0 (Term.atom 2))).bind fun q =>
      (CC.merged q.2 (Term.f1 0 (Term.atom 1))
        (Term.f1 0 (Term.atom 2))).map Prod.fst)
    = some false := by decide

/-- C3: latent equivalence via `merged` fails on the code.  After `add(a);
add(b); merge(a, b)`, the call `merged(f(a), f(b))` does intern both
composite terms (tokens 2 and 3) but returns `false` instead of the required
`true`, for the same reason as C2. -/
theorem latent_equivalence_bug :
    ((CC.add (CC.empty Term) (Term.atom 1)).bind fun p =>
     (CC.add p.2 (Term.atom 2)).bind fun q =>
     (CC.merge q.2 (Term.atom 1) (Term.atom 2)).bind fun cc =>
     (CC.merged cc (Term.f1 0 (Term.atom 1))
        (Term.f1 0 (Term.atom 2))).map fun r =>
       (r.1, lookupKey r.2.map (Term.f1 0 (Term.atom 1)),
        lookupKey r.2.map (Term.f1 0 (Term.atom 2))))
    = some (false, some 2, some 3) := by decide

/-- C4 counterexample: the claimed equivalence "`merged(f(a,b), f(b,a))` iff
`merged(a, b)` after any operation sequence" is false: merging the two
composite terms directly makes the left side true while `merged(a, b)` stays
false. -/
theorem positional_congruence_iff_ce :
    ((CC.merge (CC.empty Term) (Term.f2 0 (Term.atom 1) (Term.atom 2))
        (Term.f2 0 (Term.atom 2) (Term.atom 1))).bind fun cc =>
     (CC.merged cc (Term.f2 0 (Term.atom 1) (Term.atom 2))
        (Term.f2 0 (Term.atom 2) (Term.atom 1))).bind fun p =>
     (CC.merged p.2 (Term.atom 1) (Term.atom 2)).map fun q => (p.1, q.1))
    = some (true, false) := by decide

/-- C4 (amended): positional congruence in the add-first scenario.  After
`add(f(a,b)); add(f(b,a))` with distinct leaves, `merged(f(a,b), f(b,a))`
equals `merged(a, b)` (both false); after a subsequent `merge(a, b)`,
`merged(f(a,b), f(b,a))` is true.  Moreover `congruent` returns false on
nodes whose successor sequences have different lengths. -/
theorem positional_congruence_scenario :
    (((CC.add (CC.empty Term) (Term.f2 0 (Term.atom 1) (Term.atom 2))).bind fun p =>
      (CC.add p.2 (Term.f2 0 (Term.atom 2) (Term.atom 1))).bind fun q =>
      (CC.merged q.2 (Term.f2 0 (Term.atom 1) (Term.atom 2))
          (Term.f2 0 (Term.atom 2) (Term.atom 1))).bind fun r1 =>
      (CC.merged r1.2 (Term.atom 1) (Term.atom 2)).bind fun r2 =>
      (CC.merge r2.2 (Term.atom 1) (Term.atom 2)).bind fun cc =>
      (CC.merged cc (Term.f2 0 (Term.atom 1) (Term.atom 2))
          (Term.f2 0 (Term.atom 2) (Term.atom 1))).map fun r3 =>
        (r1.1, r2.1, r3.1))
      = some (false, false, true))
    ∧ (((CC.add (CC.empty Term) (Term.f1 0 (Term.atom 1))).bind fun p =>
        (CC.add p.2 (Term.f2 0 (Term.atom 1) (Term.atom 1))).map fun q =>
          congruent q.2.edges q.2.table p.1 q.1)
      = some false) := ⟨by decide, by decide⟩

/-- C5: token stability.  Once `add(k)` has returned token `t`, any further
sequence of public operations leaves `k` interned at `t`, and every later
`add(k)` returns the stored token `t` without touching the state. -/
theorem token_stability {K : Type} [DecidableEq K] [Key K]
    {cc cc₁ cc₂ : CC K} {k : K} {t : Nat}
    (h : CC.add cc k = some (t, cc₁)) (hs : Steps cc₁ cc₂) :
    CC.add cc₂ k = some (t, cc₂) :=
  add_present (steps_map hs k t (CC.add_map h).2)

theorem token_stability_witness :
    CC.add (CC.empty Term) (Term.atom 0) = some (0, ccA0) ∧
    CC.add ccA0 (Term.atom 0) = some (0, ccA0) :=
  ⟨rfl, @token_stability Term _ _ (CC.empty Term) ccA0 ccA0 (Term.atom 0) 0
    rfl (Steps.refl ccA0)⟩

/-- C6: monotonicity of `merged`.  Once `merged(a, b)` has returned true on a
reachable engine, it keeps returning true after any further sequence of
public operations: classes only grow and are never split. -/
theorem merged_monotone {K : Type} [DecidableEq K] [Key K]
    {cc cc₁ cc₂ : CC K} {a b : K}
    (hR : Reachable cc) (h : CC.merged cc a b = some (true, cc₁))
    (hs : Steps cc₁ cc₂) :
    CC.merged cc₂ a b = some (true, cc₂) := by
  obtain ⟨ta, ccA, tb, h1, h2, hb⟩ := merged_some h
  have hla : lookupKey cc₁.map a = some ta :=
    (CC.add_map h2).1 _ _ (CC.add_map h1).2
  have hlb : lookupKey cc₁.map b = some tb := (CC.add_map h2).2
  have hI := reachable_inv hR
  have hI₁ : CCInv cc₁ := (step_inv_mono (Step.merged cc a b true cc₁ h) hI).1
  obtain ⟨hI₂, _, hM⟩ := steps_inv_mono hs hI₁
  have hla₂ := steps_map hs a ta hla
  have hlb₂ := steps_map hs b tb hlb
  have huni : unioned cc₂.table ta tb = true := hM ta tb hb.symm
  rw [merged_of_present hla₂ hlb₂, huni]

theorem merged_monotone_witness :
    Reachable ccM ∧ CC.merged ccM (Term.atom 1) (Term.atom 2) = some (true, ccM) := by
  have hR : Reachable ccM :=
    Steps.tail (Steps.refl (CC.empty Term))
      (Step.merge (CC.empty Term) (Term.atom 1) (Term.atom 2) ccM rfl)
  exact ⟨hR, merged_monotone hR rfl (Steps.refl ccM)⟩

/-- C7: termination of the merge fixpoint.  On any valid table, the
`merge`/`maybe_merge` recursion started on two allocated tokens completes
within the budget `mergeFuel` — every non-no-op union strictly decreases the
number of equivalence classes, which is bounded by the number of interned
tokens. -/
theorem merge_fixpoint_terminates {K : Type} [Key K]
    (t : List Nat) (edges : List (Nat × Nat)) (nodes : List K) (u v : Nat)
    (hV : Valid t) (hE : EdgesValid edges t.length)
    (hu : u < t.length) (hv : v < t.length) :
    (merge_run (mergeFuel t edges) edges nodes t [(true, u, v)]).isSome = true := by
  have hwl : WlValid [((true : Bool), u, v)] t.length := by
    intro r hr
    rw [List.mem_singleton] at hr
    subst hr
    exact ⟨hu, hv⟩
  have hfuel : numClasses t *
      (t.length * edges.length * (t.length * edges.length) + 1)
      + ([((true : Bool), u, v)]).length ≤ mergeFuel t edges := by
    rw [mergeFuel]
    simp
  obtain ⟨t', heq, _, _, _, _⟩ :=
    merge_run_spec edges nodes (mergeFuel t edges) t [(true, u, v)] hV hE hwl hfuel
  rw [heq]
  rfl

theorem merge_fixpoint_terminates_witness :
    Valid [0, 1] ∧ EdgesValid ([] : List (Nat × Nat)) 2 ∧
    (merge_run (mergeFuel [0, 1] []) [] [Term.atom 0, Term.atom 1] [0, 1]
      [(true, 0, 1)]).isSome = true := by
  refine ⟨?_, ?_, ?_⟩
  · unfold Valid
    decide
  · unfold EdgesValid
    decide
  · exact merge_fixpoint_terminates [0, 1] [] [Term.atom 0, Term.atom 1] 0 1
      (by unfold Valid; decide) (by unfold EdgesValid; decide)
      (by decide) (by decide)

/-- C8: `merged` behaves as an equivalence relation over any run of the
engine: `merged(k, k)` is true; successive calls `merged(a, b)` and
`merged(b, a)` return the same value; and if `merged(d, e)` and then
`merged(e, f)` returned true, a further `merged(d, f)` returns true. -/
theorem merged_equiv {K : Type} [DecidableEq K] [Key K]
    {cc : CC K} (hR : Reachable cc)
    (k a b d e f : K) (r x y : Bool)
    (ccr cca ccb cc₄ cc₅ : CC K)
    (h₁ : CC.merged cc k k = some (r, ccr))
    (h₂ : CC.merged cc a b = some (x, cca))
    (h₃ : CC.merged cca b a = some (y, ccb))
    (h₄ : CC.merged cc d e = some (true, cc₄))
    (h₅ : CC.merged cc₄ e f = some (true, cc₅)) :
    r = true ∧ x = y ∧ CC.merged cc₅ d f = some (true, cc₅) := by
  refine ⟨?_, ?_, ?_⟩
  · -- reflexivity
    obtain ⟨t1, cc₁, t2, ha1, ha2, hbr⟩ := merged_some h₁
    rw [add_present (CC.add_map ha1).2] at ha2
    cases ha2
    rw [hbr]
    exact unioned_refl _ _
  · -- symmetry
    obtain ⟨ta, ccA, tb, g1, g2, hx⟩ := merged_some h₂
    have hla : lookupKey cca.map a = some ta :=
      (CC.add_map g2).1 _ _ (CC.add_map g1).2
    have hlb : lookupKey cca.map b = some tb := (CC.add_map g2).2
    rw [merged_of_present hlb hla] at h₃
    cases h₃
    rw [hx, unioned_comm]
  · -- transitivity
    obtain ⟨td, ccD, te, m1, m2, hde⟩ := merged_some h₄
    have hld : lookupKey cc₄.map d = some td :=
      (CC.add_map m2).1 _ _ (CC.add_map m1).2
    have hle : lookupKey cc₄.map e = some te := (CC.add_map m2).2
    obtain ⟨te', ccE, tf, n1, n2, hef⟩ := merged_some h₅
    rw [add_present hle] at n1
    cases n1
    have hld₅ : lookupKey cc₅.map d = some td := (CC.add_map n2).1 _ _ hld
    have hlf₅ : lookupKey cc₅.map f = some tf := (CC.add_map n2).2
    have hI := reachable_inv hR
    have hI₄ : CCInv cc₄ :=
      (step_inv_mono (Step.merged cc d e true cc₄ h₄) hI).1
    have hM : Mono cc₄.table cc₅.table :=
      (step_inv_mono (Step.add cc₄ f tf cc₅ n2) hI₄).2.2
    have h1 : unioned cc₅.table td te = true := hM td te hde.symm
    have h2 : unioned cc₅.table td tf = true := unioned_trans h1 hef.symm
    rw [merged_of_present hld₅ hlf₅, h2]

theorem merged_equiv_witness :
    Reachable (CC.empty Term) ∧
    (true = true ∧ false = false ∧
      CC.merged ccA3 (Term.atom 3) (Term.atom 3) = some (true, ccA3)) :=
  ⟨Steps.refl (CC.empty Term),
    merged_equiv (Steps.refl (CC.empty Term))
      (Term.atom 0) (Term.atom 1) (Term.atom 2) (Term.atom 3) (Term.atom 3)
      (Term.atom 3) true false false ccA0 ccAB ccAB ccA3 ccA3
      rfl rfl rfl rfl rfl⟩

/-- C9: infallibility.  On every reachable engine state the union-find and
graph allocators agree (the assertion of `new_token` holds), and `add`,
`merge` and `merged` all succeed on arbitrary keys. -/
theorem ops_infallible {K : Type} [DecidableEq K] [Key K]
    {cc : CC K} (hR : Reachable cc) (k k1 k2 k3 k4 : K) :
    cc.table.length = cc.nodes.length ∧
    (CC.add cc k).isSome = true ∧
    (CC.merge cc k1 k2).isSome = true ∧
    (CC.merged cc k3 k4).isSome = true := by
  have hI := reachable_inv hR
  obtain ⟨t, cc', h1, _⟩ := add_op_spec hI k
  obtain ⟨ccm, h2, _⟩ := merge_op_spec hI k1 k2
  obtain ⟨bm, ccd, h3, _⟩ := merged_op_spec hI k3 k4
  exact ⟨hI.len_eq, by rw [h1]; rfl, by rw [h2]; rfl, by rw [h3]; rfl⟩

theorem ops_infallible_witness :
    (CC.empty Term).table.length = (CC.empty Term).nodes.length ∧
    (CC.add (CC.empty Term) (Term.atom 0)).isSome = true ∧
    (CC.merge (CC.empty Term) (Term.atom 1) (Term.atom 2)).isSome = true ∧
    (CC.merged (CC.empty Term) (Term.atom 3) (Term.atom 4)).isSome = true :=
  ops_infallible (Steps.refl (CC.empty Term)) (Term.atom 0) (Term.atom 1)
    (Term.atom 2) (Term.atom 3) (Term.atom 4)

/-- C10: frame property of re-adding.  If a key is already in the interning
map, `add` returns the stored token and the engine state is exactly
unchanged: no map entry, table slot, node or edge is created and no classes
are unioned. -/
theorem add_frame {K : Type} [DecidableEq K] [Key K] {cc : CC K} {k : K}
    {t : Nat} (h : lookupKey cc.map k = some t) :
    CC.add cc k = some (t, cc) :=
  add_present h

theorem add_frame_witness :
    lookupKey ccA0.map (Term.atom 0) = some 0 ∧
    CC.add ccA0 (Term.atom 0) = some (0, ccA0) :=
  ⟨rfl, add_frame rfl⟩
